import Mathlib

/-!
Verification of the language-model grammatical-error-correction program
(`lmgec.py`): a shallow embedding of the candidate generator
(`generateCands`), the per-sweep edit search (`processSent`), the
inflection-database loader (`loadWordFormDict`) and the line-processing
orchestrator (`main`), together with proofs of the specified properties.

Modelling conventions:
* A sentence is a `List String` of tokens.
* The KenLM scorer, the spaCy lemmatizer and the Hunspell spellchecker are
  abstract parameters (fields of `Res`); each is a deterministic function,
  as the specification demands of the external collaborators.
* `kenlm.Model.score` tokenizes its input string on whitespace, and both
  call sites in `processSent` pass the whitespace-joined current token
  list, so the scorer is modelled as a function on token lists.
* Python dicts (insertion-ordered, insert-or-replace-in-place) are
  modelled as association lists with `pyDictInsert`.
* Rationals stand in for Python floats (exact arithmetic in place of
  IEEE 754); string case functions follow Python's semantics on ASCII.
* The unbounded `while has_errors` loop of `main` is modelled with an
  explicit iteration bound `fuel` (`correctLoop`); every terminating run
  of the source loop is `correctLoop` at a sufficiently large `fuel`.
-/

namespace Lmgec

/-- An edit identifier `(tok_id, cand, weight)`, exactly the `edit_id`
tuple built in `generateCands`. -/
abbrev Edit := ℕ × String × ℚ

/-- Association-list model of the Python dict from edit identifiers to
candidate corrected sentences (`cand_dict` / `edit_dict`). -/
abbrev CandDict := List (Edit × List String)

/-- Python `d[k] = v`: replace the value in place when the key is already
present, append the pair otherwise. -/
def pyDictInsert {α β : Type} [DecidableEq α] (d : List (α × β)) (k : α) (v : β) :
    List (α × β) :=
  if d.any (fun p => p.1 = k) then d.map (fun p => if p.1 = k then (k, v) else p)
  else d ++ [(k, v)]

/-- Python `d.update(new)`: assign every pair of `new` into `d`, in the
iteration (insertion) order of `new`. -/
def dictUpdate (d new : CandDict) : CandDict :=
  new.foldl (fun acc p => pyDictInsert acc p.1 p.2) d

/-- The hypothesis sentence for one candidate: copy the sentence, replace
the token at `tok_id` with `cand`, drop empty strings (deletions). -/
def hypSent (tok_id : ℕ) (sent : List String) (cand : String) : List String :=
  (sent.set tok_id cand).filter (fun t => decide (t ≠ ""))

/-- One loop iteration of `generateCands`: record the hypothesis sentence
under `(tok_id, cand, weight)` unless it is empty. -/
def genStep (tok_id : ℕ) (sent : List String) (weight : ℚ) (ed : CandDict)
    (cand : String) : CandDict :=
  if hypSent tok_id sent cand ≠ [] then
    pyDictInsert ed (tok_id, cand, weight) (hypSent tok_id sent cand)
  else ed

/-- `generateCands(tok_id, cands, sent, weight)`: one hypothesis sentence
per candidate, keyed by `(tok_id, cand, weight)`; empty results are never
recorded. -/
def generateCands (tok_id : ℕ) (cands sent : List String) (weight : ℚ) : CandDict :=
  cands.foldl (genStep tok_id sent weight) []

/-- The resource bag built by `loadResources`, with the external
collaborators as abstract deterministic functions. `lemmaOf sent i` is the
lemma spaCy assigns to token `i` of `sent` (the tagger sees the whole
sentence, so a lemma may depend on context); spaCy's
`tokenizer.tokens_from_list` preserves token count and order, so token
texts and positions are those of the sentence itself. -/
structure Res where
  lm : List String → ℚ
  lemmaOf : List String → ℕ → String
  spell : String → Bool
  suggest : String → List String
  gb_infl : List (String × List String)
  det : List String
  prep : List String

/-- Python `str.isalpha` (ASCII model): non-empty and all alphabetic. -/
def pyIsAlpha (s : String) : Bool :=
  !s.data.isEmpty && s.data.all Char.isAlpha

/-- Length-normalised LM score, `lm.score(...)/len(...)`, of a token list. -/
def candProb (lm : List String → ℚ) (s : List String) : ℚ :=
  lm s / (s.length : ℚ)

/-- The acceptance test of `processSent`: `cand_prob > weight * orig_prob`. -/
def eligTest (lm : List String → ℚ) (orig w : ℚ) (cs : List String) : Prop :=
  candProb lm cs > w * orig

instance (lm : List String → ℚ) (orig w : ℚ) (cs : List String) :
    Decidable (eligTest lm orig w cs) := by
  unfold eligTest; infer_instance

/-- `cand_prob > best_prob`, where `best_prob` starts at `float("-inf")`
(modelled by `none`). -/
def gtBest (best : Option ℚ) (c : ℚ) : Prop :=
  match best with
  | none => True
  | some b => b < c

instance (best : Option ℚ) (c : ℚ) : Decidable (gtBest best c) := by
  unfold gtBest; cases best <;> infer_instance

/-- The selection loop of `processSent` over the candidate dict: take a
candidate when it beats the weighted original score and the best so far. -/
def selectLoop (lm : List String → ℚ) (orig : ℚ) :
    CandDict → Option ℚ × List String → Option ℚ × List String
  | [], st => st
  | p :: rest, (bp, bs) =>
    if eligTest lm orig p.1.2.2 p.2 ∧ gtBest bp (candProb lm p.2) then
      selectLoop lm orig rest (some (candProb lm p.2), p.2)
    else
      selectLoop lm orig rest (bp, bs)

/-- The SPELLCHECKING block of `processSent`: only for a purely
alphabetic token the spellchecker does not know, and only when there is
at least one suggestion. -/
def spellCands (res : Res) (th : ℚ) (sent : List String) (d : CandDict)
    (i : ℕ) (t : String) : CandDict :=
  if pyIsAlpha t = true ∧ res.spell t = false then
    (if res.suggest t ≠ [] then dictUpdate d (generateCands i (res.suggest t) sent th)
     else d)
  else d

/-- The MORPHOLOGY block of `processSent`: only when the token's lemma is
a key of the inflection dictionary. -/
def morphCands (res : Res) (th : ℚ) (sent : List String) (d : CandDict)
    (i : ℕ) : CandDict :=
  match res.gb_infl.lookup (res.lemmaOf sent i) with
  | some forms => dictUpdate d (generateCands i forms sent th)
  | none => d

/-- The DETERMINERS block of `processSent`: only for a token that is a
member of the determiner set. -/
def detCands (res : Res) (th : ℚ) (sent : List String) (d : CandDict)
    (i : ℕ) (t : String) : CandDict :=
  if t ∈ res.det then dictUpdate d (generateCands i res.det sent th) else d

/-- The PREPOSITIONS block of `processSent`: only for a token that is a
member of the preposition set. -/
def prepCands (res : Res) (th : ℚ) (sent : List String) (d : CandDict)
    (i : ℕ) (t : String) : CandDict :=
  if t ∈ res.prep then dictUpdate d (generateCands i res.prep sent th) else d

/-- One token's contribution to the candidate dict: the four provider
blocks of `processSent`, in source order (spelling, morphology,
determiners, prepositions). -/
def tokCands (res : Res) (th : ℚ) (sent : List String) (d : CandDict)
    (i : ℕ) (t : String) : CandDict :=
  prepCands res th sent (detCands res th sent (morphCands res th sent
    (spellCands res th sent d i t) i) i t) i t

/-- The candidate dict one sweep of `processSent` assembles over the
tokens of `sent`, enumerated with their positions. -/
def buildCandDict (res : Res) (th : ℚ) (sent : List String) : CandDict :=
  sent.enum.foldl (fun d it => tokCands res th sent d it.1 it.2) []

/-- One sweep (`processSent`): score the current sentence, gather every
candidate, select the best eligible hypothesis; return `(best, true)` on
a selection and `(sent, false)` otherwise. -/
def processSent (res : Res) (th : ℚ) (sent : List String) : List String × Bool :=
  let orig := candProb res.lm sent
  let best := selectLoop res.lm orig (buildCandDict res th sent) (none, [])
  if best.2 ≠ [] then (best.2, true) else (sent, false)

/-- The hypotheses of one sweep that pass the acceptance test — the
eligible set of the sweep at threshold `th`. -/
def eligSet (res : Res) (th : ℚ) (sent : List String) : CandDict :=
  (buildCandDict res th sent).filter
    (fun p => decide (eligTest res.lm (candProb res.lm sent) p.1.2.2 p.2))

/-- The `while has_errors` correction loop of `main`, with an explicit
iteration bound (the source loop is unbounded; each terminating run of it
equals `correctLoop` at every sufficiently large `fuel`). -/
def correctLoop (res : Res) (th : ℚ) : ℕ → List String → List String
  | 0, sent => sent
  | fuel + 1, sent =>
    let r := processSent res th sent
    if r.2 then correctLoop res th fuel r.1 else r.1

/-- ASCII `str.lower` on one character. -/
def lowerChar (c : Char) : Char :=
  if 65 ≤ c.toNat ∧ c.toNat ≤ 90 then Char.ofNat (c.toNat + 32) else c

/-- ASCII `str.upper` on one character. -/
def upperChar (c : Char) : Char :=
  if 97 ≤ c.toNat ∧ c.toNat ≤ 122 then Char.ofNat (c.toNat - 32) else c

/-- Python `str.lower` (ASCII model). -/
def pyLower (s : String) : String := String.mk (s.data.map lowerChar)

/-- Python `str.upper` (ASCII model). -/
def pyUpper (s : String) : String := String.mk (s.data.map upperChar)

/-- Python `str.isupper`: at least one cased character and no lowercase
cased character (ASCII model). -/
def pyIsUpper (s : String) : Bool :=
  s.data.any (fun c => c.isUpper || c.isLower) && s.data.all (fun c => !c.isLower)

/-- Python `str.split()` on a character list: split on whitespace runs,
producing no empty words; `acc` holds the current word reversed. -/
def wordsAux : List Char → List Char → List (List Char)
  | [], acc => if acc = [] then [] else [acc.reverse]
  | c :: cs, acc =>
    if c.isWhitespace then
      (if acc = [] then wordsAux cs [] else acc.reverse :: wordsAux cs [])
    else wordsAux cs (c :: acc)

/-- Python `sent.strip().split()`: whitespace tokenization of a line. -/
def pySplit (s : String) : List String := (wordsAux s.data []).map String.mk

/-- Python `" ".join(toks)` on character lists. -/
def joinChars : List String → List Char
  | [] => []
  | [t] => t.data
  | t :: ts => t.data ++ ' ' :: joinChars ts

/-- Python `" ".join(toks)`. -/
def joinToks (ts : List String) : String := String.mk (joinChars ts)

/-- `sent[0].upper() + sent[1:]` — the first-character capitalisation of
`main`. The source raises IndexError on the empty string; the
orchestrator never reaches this point with one (claim C9). -/
def capFirst (s : String) : String :=
  match s.data with
  | [] => ""
  | c :: cs => String.mk (upperChar c :: cs)

/-- Processing of one input line by `main` (the output line, without its
trailing newline): whole-line-uppercase detection and lowering,
whitespace tokenization, blank-line passthrough, the bounded correction
loop, joining, first-character capitalisation and case restoration. -/
def processLine (res : Res) (th : ℚ) (fuel : ℕ) (line : String) : String :=
  let upper := pyIsUpper line
  let line1 := if upper then pyLower line else line
  let toks := pySplit line1
  if toks = [] then ""
  else
    let sent := correctLoop res th fuel toks
    let out := capFirst (joinToks sent)
    if upper then pyUpper out else out

/-- The orchestrator's loop over the input lines: one output line per
input line, in order. -/
def processLines (res : Res) (th : ℚ) (fuel : ℕ) (lines : List String) :
    List String :=
  lines.map (processLine res th fuel)

/-- The characters the loader strips from the forms field, the regex
class of digits 0-2, tilde, less-than, comma, underscore, bang, question
mark, dot and pipe. -/
def isMarkupChar (c : Char) : Bool :=
  c = '0' || c = '1' || c = '2' || c = '~' || c = '<' || c = ',' ||
  c = '_' || c = '!' || c = '?' || c = '.' || c = '|'

/-- An opening curly brace. -/
def lbrace : Char := Char.ofNat 123

/-- A closing curly brace. -/
def rbrace : Char := Char.ofNat 125

/-- The loader's non-greedy bracketed-annotation removal, on structural
fuel (one unit per consumed character, so `l.length` always suffices):
drop each span from an opening brace to the nearest following closing
brace; an opening brace with no closing brace after it is kept, as the
regex then fails to match. -/
def dropBraceAux : ℕ → List Char → List Char
  | 0, l => l
  | _, [] => []
  | fuel + 1, c :: cs =>
    if c = lbrace then
      match cs.dropWhile (fun d => !(d = rbrace)) with
      | [] => c :: cs
      | _ :: rest => dropBraceAux fuel rest
    else c :: dropBraceAux fuel cs

/-- The regex substitution removing bracketed annotations from a forms
field. -/
def dropBraceSpans (l : List Char) : List Char :=
  dropBraceAux l.length l

/-- Python `str.strip()`: drop whitespace from both ends. -/
def pyStrip (l : List Char) : List Char :=
  ((l.dropWhile Char.isWhitespace).reverse.dropWhile Char.isWhitespace).reverse

/-- Python `content.split("\n")`: split on every newline, keeping empty
pieces; `acc` holds the current piece reversed. -/
def splitNl : List Char → List Char → List (List Char)
  | [], acc => [acc.reverse]
  | c :: cs, acc =>
    if c = '\n' then acc.reverse :: splitNl cs [] else splitNl cs (c :: acc)

/-- Python `entry.split(": ")`: split on every non-overlapping
colon-space occurrence, left to right, keeping empty pieces. -/
def splitColonSpace : List Char → List Char → List (List Char)
  | [], acc => [acc.reverse]
  | [c], acc => [(c :: acc).reverse]
  | c1 :: c2 :: cs, acc =>
    if c1 = ':' ∧ c2 = ' ' then acc.reverse :: splitColonSpace cs []
    else splitColonSpace (c2 :: cs) (c1 :: acc)

/-- Parsing of one line of the inflection database, the loop body of
`loadWordFormDict`: split on the colon-space separator, take the lemma as
the first whitespace word of the key part, strip markup characters and
bracketed annotations from the forms part, and collect the lemma together
with the forms. `none` models an uncaught IndexError (`entry[1]` when the
line has no separator, `key[0]` when the key part is blank), which aborts
the whole load. -/
def parseEntry (line : String) : Option (String × List String) :=
  match splitColonSpace line.data [] with
  | [] => none
  | [_] => none
  | p0 :: p1 :: _ =>
    match wordsAux p0 [] with
    | [] => none
    | word :: _ =>
      let f1 := p1.filter (fun c => !isMarkupChar c)
      let forms := (wordsAux (dropBraceSpans f1) []).map String.mk
      some (String.mk word, (String.mk word :: forms).dedup)

/-- `loadWordFormDict` on the database file's content: strip the content,
split it on newlines, parse every line in order into the form dictionary;
a line `parseEntry` rejects aborts the whole load (uncaught IndexError in
the source). The Python form set `set([word]+forms)` is modelled as the
deduplicated list, whose membership is the set's. -/
def loadWordFormDict (content : String) : Option (List (String × List String)) :=
  ((splitNl (pyStrip content.data) []).map String.mk).foldlM
    (fun d line => (parseEntry line).map (fun p => pyDictInsert d p.1 p.2)) []

/-- A tiny concrete LM for witnesses and counterexamples: scores are
negative, as log-probabilities are. -/
def exLm : List String → ℚ := fun s =>
  if s = ["the"] then -197 / 100 else if s = ["a"] then -2 else -3

/-- A tiny concrete resource bag for witnesses and counterexamples: every
word is spelled correctly, no inflection entries, determiners only. -/
def exRes : Res where
  lm := exLm
  lemmaOf := fun _ _ => "z"
  spell := fun _ => true
  suggest := fun _ => []
  gb_infl := []
  det := ["a", "the"]
  prep := []

/-! Helper lemmas about the dict model and the candidate generator. -/

theorem mem_pyDictInsert {α β : Type} [DecidableEq α] {d : List (α × β)} {k : α}
    {v : β} {p : α × β} (hp : p ∈ pyDictInsert d k v) : p ∈ d ∨ p = (k, v) := by
  unfold pyDictInsert at hp
  split at hp
  · obtain ⟨q, hq, hqe⟩ := List.mem_map.1 hp
    by_cases h : q.1 = k
    · simp only [h, if_pos] at hqe
      exact Or.inr hqe.symm
    · simp only [h, if_neg, not_false_iff] at hqe
      exact Or.inl (hqe ▸ hq)
  · rcases List.mem_append.1 hp with h | h
    · exact Or.inl h
    · simp only [List.mem_singleton] at h
      exact Or.inr h

theorem mem_dictUpdate {d new : CandDict} {p : Edit × List String}
    (hp : p ∈ dictUpdate d new) : p ∈ d ∨ p ∈ new := by
  induction new generalizing d with
  | nil => exact Or.inl hp
  | cons q rest ih =>
    rcases @ih (pyDictInsert d q.1 q.2) hp with h | h
    · rcases mem_pyDictInsert h with h' | h'
      · exact Or.inl h'
      · exact Or.inr (h' ▸ List.mem_cons_self q rest)
    · exact Or.inr (List.mem_cons_of_mem q h)

theorem mem_genFold (tok_id : ℕ) (sent : List String) (w : ℚ) :
    ∀ (cands : List String) (d0 : CandDict) (p : Edit × List String),
      p ∈ cands.foldl (genStep tok_id sent w) d0 →
      p ∈ d0 ∨ ∃ cand ∈ cands, p.1 = (tok_id, cand, w) ∧
        p.2 = hypSent tok_id sent cand ∧ p.2 ≠ [] := by
  intro cands
  induction cands with
  | nil => intro d0 p hp; exact Or.inl hp
  | cons c cs ih =>
    intro d0 p hp
    rw [List.foldl_cons] at hp
    rcases ih (genStep tok_id sent w d0 c) p hp with h | h
    · unfold genStep at h
      split at h
      · rcases mem_pyDictInsert h with h' | h'
        · exact Or.inl h'
        · refine Or.inr ⟨c, List.mem_cons_self c cs, ?_, ?_, ?_⟩
          · rw [h']
          · rw [h']
          · rw [h']
            assumption
      · exact Or.inl h
    · obtain ⟨cand, hc, h1, h2, h3⟩ := h
      exact Or.inr ⟨cand, List.mem_cons_of_mem c hc, h1, h2, h3⟩

theorem mem_generateCands {tok_id : ℕ} {cands sent : List String} {w : ℚ}
    {p : Edit × List String} (hp : p ∈ generateCands tok_id cands sent w) :
    ∃ cand ∈ cands, p.1 = (tok_id, cand, w) ∧
      p.2 = hypSent tok_id sent cand ∧ p.2 ≠ [] := by
  rcases mem_genFold tok_id sent w cands [] p hp with h | h
  · cases h
  · exact h

/-- Every token of a hypothesis sentence is a non-empty string, because
`generateCands` filters the empty strings out. -/
theorem hypSent_tokens_ne (tok_id : ℕ) (sent : List String) (cand : String) :
    ∀ t ∈ hypSent tok_id sent cand, t ≠ "" := by
  intro t ht
  have := List.mem_filter.1 ht
  exact of_decide_eq_true this.2

/-- A substitution by a non-empty candidate in a sentence of non-empty
tokens filters nothing out. -/
theorem hypSent_of_ne (tok_id : ℕ) (sent : List String) (cand : String)
    (hne : ∀ t ∈ sent, t ≠ "") (hc : cand ≠ "") :
    hypSent tok_id sent cand = sent.set tok_id cand := by
  unfold hypSent
  apply List.filter_eq_self.2
  intro a ha
  rcases List.mem_or_eq_of_mem_set ha with h | h
  · exact decide_eq_true (hne a h)
  · exact decide_eq_true (h ▸ hc)

/-- A deletion (empty-string candidate) in a sentence of non-empty tokens
removes exactly the token at the target position. -/
theorem hypSent_of_del (tok_id : ℕ) (sent : List String)
    (hne : ∀ t ∈ sent, t ≠ "") (hlt : tok_id < sent.length) :
    hypSent tok_id sent "" = sent.eraseIdx tok_id := by
  induction sent generalizing tok_id with
  | nil => simp at hlt
  | cons x xs ih =>
    cases tok_id with
    | zero =>
      unfold hypSent
      simp only [List.set_cons_zero, List.eraseIdx_cons_zero, List.filter_cons]
      rw [if_neg (by simp)]
      apply List.filter_eq_self.2
      intro a ha
      exact decide_eq_true (hne a (List.mem_cons_of_mem x ha))
    | succ n =>
      unfold hypSent at ih ⊢
      simp only [List.set_cons_succ, List.eraseIdx_cons_succ, List.filter_cons]
      rw [if_pos (decide_eq_true (hne x (List.mem_cons_self x xs)))]
      rw [ih n (fun t ht => hne t (List.mem_cons_of_mem x ht))
        (Nat.lt_of_succ_lt_succ hlt)]

/-- C4: for every candidate edit, the generated hypothesis sentence is
non-empty: `generateCands` never records an empty token list in its
output mapping (so deleting a sentence's only remaining token is never a
selectable hypothesis). -/
theorem generateCands_no_empty_hypothesis (tok_id : ℕ) (cands sent : List String)
    (w : ℚ) (p : Edit × List String) (hp : p ∈ generateCands tok_id cands sent w) :
    p.2 ≠ [] := by
  obtain ⟨cand, _, _, _, h⟩ := mem_generateCands hp
  exact h

theorem generateCands_no_empty_hypothesis_w :
    (((0, "", (1 : ℚ)), ["b"]) : Edit × List String).2 ≠ [] :=
  generateCands_no_empty_hypothesis 0 ["", "x"] ["a", "b"] 1
    ((0, "", (1 : ℚ)), ["b"]) (by decide)

/-- C10: on a sentence of non-empty tokens, every hypothesis that
`generateCands tok_id cands sent w` produces is obtained from `sent` by a
single edit at position `tok_id`: a deletion (empty candidate) erases
exactly the token at `tok_id`, shortening the sentence by one, and any
other candidate replaces exactly the token at `tok_id`, preserving the
length; all other tokens are kept in their original relative order. -/
theorem generateCands_single_edit (tok_id : ℕ) (cands sent : List String) (w : ℚ)
    (hne : ∀ t ∈ sent, t ≠ "") (hlt : tok_id < sent.length)
    (p : Edit × List String) (hp : p ∈ generateCands tok_id cands sent w) :
    ∃ cand ∈ cands, p.1 = (tok_id, cand, w) ∧
      (cand = "" → p.2 = sent.eraseIdx tok_id ∧ p.2.length = sent.length - 1) ∧
      (cand ≠ "" → p.2 = sent.set tok_id cand ∧ p.2.length = sent.length) := by
  obtain ⟨cand, hc, h1, h2, _⟩ := mem_generateCands hp
  refine ⟨cand, hc, h1, ?_, ?_⟩
  · intro hdel
    have hval : p.2 = sent.eraseIdx tok_id := by
      rw [h2, hdel, hypSent_of_del tok_id sent hne hlt]
    exact ⟨hval, by rw [hval, List.length_eraseIdx_of_lt hlt]⟩
  · intro hsub
    have hval : p.2 = sent.set tok_id cand := by
      rw [h2, hypSent_of_ne tok_id sent cand hne hsub]
    exact ⟨hval, by rw [hval, List.length_set]⟩

theorem generateCands_single_edit_w :
    ∃ cand ∈ ["", "x"], (((0, "", (1 : ℚ)), ["b"]) : Edit × List String).1 = (0, cand, 1) ∧
      (cand = "" → (["b"] : List String) = (["a", "b"] : List String).eraseIdx 0 ∧
        (["b"] : List String).length = (["a", "b"] : List String).length - 1) ∧
      (cand ≠ "" → (["b"] : List String) = (["a", "b"] : List String).set 0 cand ∧
        (["b"] : List String).length = (["a", "b"] : List String).length) :=
  generateCands_single_edit 0 ["", "x"] ["a", "b"] 1 (by decide) (by decide)
    ((0, "", (1 : ℚ)), ["b"]) (by decide)

/-- Transitivity of beating a best-so-far bound. -/
theorem gtBest_trans {bp : Option ℚ} {a b : ℚ} (h1 : gtBest bp a) (h2 : a < b) :
    gtBest bp b := by
  cases bp with
  | none => trivial
  | some x => exact lt_trans h1 h2

/-- Characterisation of the selection loop of `processSent`: from state
`(bp, bs)` over the candidate list `L`, either no candidate is eligible
and beats `bp`, and the state passes through unchanged; or the result is
the first candidate that attains the maximum score among those that are
eligible and beat `bp` — every earlier such candidate scores strictly
lower, every later eligible candidate scores no higher. -/
theorem selectLoop_spec (lm : List String → ℚ) (orig : ℚ) :
    ∀ (L : CandDict) (bp : Option ℚ) (bs : List String),
      (selectLoop lm orig L (bp, bs) = (bp, bs) ∧
        ∀ p ∈ L, ¬(eligTest lm orig p.1.2.2 p.2 ∧ gtBest bp (candProb lm p.2))) ∨
      (∃ l1 p l2, L = l1 ++ p :: l2 ∧
        eligTest lm orig p.1.2.2 p.2 ∧ gtBest bp (candProb lm p.2) ∧
        selectLoop lm orig L (bp, bs) = (some (candProb lm p.2), p.2) ∧
        (∀ q ∈ l1, eligTest lm orig q.1.2.2 q.2 → gtBest bp (candProb lm q.2) →
          candProb lm q.2 < candProb lm p.2) ∧
        (∀ q ∈ l2, eligTest lm orig q.1.2.2 q.2 →
          candProb lm q.2 ≤ candProb lm p.2)) := by
  intro L
  induction L with
  | nil =>
    intro bp bs
    exact Or.inl ⟨rfl, fun p hp => absurd hp (List.not_mem_nil p)⟩
  | cons a rest ih =>
    intro bp bs
    by_cases htake : eligTest lm orig a.1.2.2 a.2 ∧ gtBest bp (candProb lm a.2)
    · have hstep : selectLoop lm orig (a :: rest) (bp, bs) =
          selectLoop lm orig rest (some (candProb lm a.2), a.2) := by
        simp only [selectLoop]
        rw [if_pos htake]
      rcases ih (some (candProb lm a.2)) a.2 with ⟨heq, hnone⟩ | hfound
      · refine Or.inr ⟨[], a, rest, by simp, htake.1, htake.2, ?_, ?_, ?_⟩
        · rw [hstep, heq]
        · intro q hq
          cases hq
        · intro q hq he
          by_contra hlt
          exact hnone q hq ⟨he, lt_of_not_le hlt⟩
      · obtain ⟨l1, p, l2, hsplit, hpe, hpb, heq, hbefore, hafter⟩ := hfound
        have hap : candProb lm a.2 < candProb lm p.2 := hpb
        refine Or.inr ⟨a :: l1, p, l2, by rw [hsplit]; rfl, hpe,
          gtBest_trans htake.2 hap, ?_, ?_, hafter⟩
        · rw [hstep, heq]
        · intro q hq hqe hqb
          rcases List.mem_cons.1 hq with h | h
          · rw [h]
            exact hap
          · by_cases hqa : gtBest (some (candProb lm a.2)) (candProb lm q.2)
            · exact hbefore q h hqe hqa
            · have : candProb lm q.2 ≤ candProb lm a.2 := le_of_not_lt hqa
              exact lt_of_le_of_lt this hap
    · have hstep : selectLoop lm orig (a :: rest) (bp, bs) =
          selectLoop lm orig rest (bp, bs) := by
        simp only [selectLoop]
        rw [if_neg htake]
      rcases ih bp bs with ⟨heq, hnone⟩ | hfound
      · refine Or.inl ⟨by rw [hstep, heq], ?_⟩
        intro p hp
        rcases List.mem_cons.1 hp with h | h
        · rw [h]
          exact htake
        · exact hnone p h
      · obtain ⟨l1, p, l2, hsplit, hpe, hpb, heq, hbefore, hafter⟩ := hfound
        refine Or.inr ⟨a :: l1, p, l2, by rw [hsplit]; rfl, hpe, hpb, ?_, ?_, hafter⟩
        · rw [hstep, heq]
        · intro q hq hqe hqb
          rcases List.mem_cons.1 hq with h | h
          · exact absurd ⟨h ▸ hqe, h ▸ hqb⟩ htake
          · exact hbefore q h hqe hqb

/-- Every pair of a provider block's output is either carried over from
the incoming dict or produced by `generateCands` on this sentence. -/
theorem mem_spellCands {res : Res} {th : ℚ} {sent : List String} {d : CandDict}
    {i : ℕ} {t : String} {r : Edit × List String}
    (hr : r ∈ spellCands res th sent d i t) :
    r ∈ d ∨ ∃ cands, r ∈ generateCands i cands sent th := by
  unfold spellCands at hr
  split at hr
  · split at hr
    · rcases mem_dictUpdate hr with h | h
      · exact Or.inl h
      · exact Or.inr ⟨_, h⟩
    · exact Or.inl hr
  · exact Or.inl hr

theorem mem_morphCands {res : Res} {th : ℚ} {sent : List String} {d : CandDict}
    {i : ℕ} {r : Edit × List String} (hr : r ∈ morphCands res th sent d i) :
    r ∈ d ∨ ∃ cands, r ∈ generateCands i cands sent th := by
  unfold morphCands at hr
  split at hr
  · rcases mem_dictUpdate hr with h | h
    · exact Or.inl h
    · exact Or.inr ⟨_, h⟩
  · exact Or.inl hr

theorem mem_detCands {res : Res} {th : ℚ} {sent : List String} {d : CandDict}
    {i : ℕ} {t : String} {r : Edit × List String}
    (hr : r ∈ detCands res th sent d i t) :
    r ∈ d ∨ ∃ cands, r ∈ generateCands i cands sent th := by
  unfold detCands at hr
  split at hr
  · rcases mem_dictUpdate hr with h | h
    · exact Or.inl h
    · exact Or.inr ⟨_, h⟩
  · exact Or.inl hr

theorem mem_prepCands {res : Res} {th : ℚ} {sent : List String} {d : CandDict}
    {i : ℕ} {t : String} {r : Edit × List String}
    (hr : r ∈ prepCands res th sent d i t) :
    r ∈ d ∨ ∃ cands, r ∈ generateCands i cands sent th := by
  unfold prepCands at hr
  split at hr
  · rcases mem_dictUpdate hr with h | h
    · exact Or.inl h
    · exact Or.inr ⟨_, h⟩
  · exact Or.inl hr

theorem mem_tokCands {res : Res} {th : ℚ} {sent : List String} {d : CandDict}
    {i : ℕ} {t : String} {r : Edit × List String}
    (hr : r ∈ tokCands res th sent d i t) :
    r ∈ d ∨ ∃ j cands, r ∈ generateCands j cands sent th := by
  unfold tokCands at hr
  rcases mem_prepCands hr with h | ⟨cands, h⟩
  · rcases mem_detCands h with h | ⟨cands, h⟩
    · rcases mem_morphCands h with h | ⟨cands, h⟩
      · rcases mem_spellCands h with h | ⟨cands, h⟩
        · exact Or.inl h
        · exact Or.inr ⟨i, cands, h⟩
      · exact Or.inr ⟨i, cands, h⟩
    · exact Or.inr ⟨i, cands, h⟩
  · exact Or.inr ⟨i, cands, h⟩

/-- Every value stored in the candidate dict of a sweep is a hypothesis
sentence built by `generateCands` on the current sentence: non-empty,
with non-empty tokens. -/
theorem mem_buildCandDict {res : Res} {th : ℚ} {sent : List String}
    {p : Edit × List String} (hp : p ∈ buildCandDict res th sent) :
    p.2 ≠ [] ∧ ∀ t ∈ p.2, t ≠ "" := by
  unfold buildCandDict at hp
  suffices h : ∀ (l : List (ℕ × String)) (d0 : CandDict),
      (∀ q ∈ d0, q.2 ≠ [] ∧ ∀ t ∈ q.2, t ≠ "") →
      ∀ q ∈ l.foldl (fun d it => tokCands res th sent d it.1 it.2) d0,
        q.2 ≠ [] ∧ ∀ t ∈ q.2, t ≠ "" by
    exact h sent.enum [] (fun q hq => absurd hq (List.not_mem_nil q)) p hp
  intro l
  induction l with
  | nil => intro d0 h0 q hq; exact h0 q hq
  | cons it rest ih =>
    intro d0 h0 q hq
    rw [List.foldl_cons] at hq
    refine ih (tokCands res th sent d0 it.1 it.2) ?_ q hq
    intro r hr
    rcases mem_tokCands hr with h | ⟨j, cands, h⟩
    · exact h0 r h
    · obtain ⟨cand, _, _, h2, h3⟩ := mem_generateCands h
      exact ⟨h3, h2 ▸ hypSent_tokens_ne j sent cand⟩

/-- C2: in one sweep, `processSent` selects among the hypothesis
sentences of the candidate dict exactly those passing
`score > weight * baseline`; either no hypothesis passes and the sweep
selects nothing, or the sweep returns the eligible hypothesis with the
strictly greatest length-normalised score, the earliest in iteration
order among equals — every eligible hypothesis before the selected one
scores strictly lower, and every eligible one after it scores no higher,
so a later hypothesis with an equal or lower score never displaces the
selected best. -/
theorem processSent_selects_first_max (res : Res) (th : ℚ) (sent : List String) :
    ((∀ p ∈ buildCandDict res th sent,
        ¬ eligTest res.lm (candProb res.lm sent) p.1.2.2 p.2) ∧
      processSent res th sent = (sent, false)) ∨
    (∃ l1 p l2, buildCandDict res th sent = l1 ++ p :: l2 ∧
      eligTest res.lm (candProb res.lm sent) p.1.2.2 p.2 ∧
      processSent res th sent = (p.2, true) ∧
      (∀ q ∈ l1, eligTest res.lm (candProb res.lm sent) q.1.2.2 q.2 →
        candProb res.lm q.2 < candProb res.lm p.2) ∧
      (∀ q ∈ l2, eligTest res.lm (candProb res.lm sent) q.1.2.2 q.2 →
        candProb res.lm q.2 ≤ candProb res.lm p.2)) := by
  rcases selectLoop_spec res.lm (candProb res.lm sent) (buildCandDict res th sent)
      none [] with ⟨heq, hnone⟩ | ⟨l1, p, l2, hsplit, hpe, _, heq, hbefore, hafter⟩
  · refine Or.inl ⟨fun p hp he => hnone p hp ⟨he, trivial⟩, ?_⟩
    simp only [processSent]
    rw [heq]
    simp
  · have hpmem : p ∈ buildCandDict res th sent := by
      rw [hsplit]
      exact List.mem_append.2 (Or.inr (List.mem_cons_self p l2))
    have hpne : p.2 ≠ [] := (mem_buildCandDict hpmem).1
    refine Or.inr ⟨l1, p, l2, hsplit, hpe, ?_,
      fun q hq he => hbefore q hq he trivial, hafter⟩
    simp only [processSent]
    rw [heq]
    simp [hpne]

/-- C5: if no hypothesis of the sweep passes the acceptance rule,
`processSent` returns the input sentence unchanged with the flag
`false`; whenever the flag is `false` the returned token list is the
input token list itself; and whenever the flag is `true` the returned
sentence is an eligible hypothesis of the sweep's candidate dict. -/
theorem processSent_frame (res : Res) (th : ℚ) (sent : List String) :
    ((∀ p ∈ buildCandDict res th sent,
        ¬ eligTest res.lm (candProb res.lm sent) p.1.2.2 p.2) →
      processSent res th sent = (sent, false)) ∧
    ((processSent res th sent).2 = false → (processSent res th sent).1 = sent) ∧
    ((processSent res th sent).2 = true →
      ∃ p ∈ buildCandDict res th sent,
        eligTest res.lm (candProb res.lm sent) p.1.2.2 p.2 ∧
        (processSent res th sent).1 = p.2) := by
  rcases selectLoop_spec res.lm (candProb res.lm sent) (buildCandDict res th sent)
      none [] with ⟨heq, hnone⟩ | ⟨l1, p, l2, hsplit, hpe, _, heq, _, _⟩
  · have hps : processSent res th sent = (sent, false) := by
      simp only [processSent]
      rw [heq]
      simp
    refine ⟨fun _ => hps, fun _ => by rw [hps], fun hflag => ?_⟩
    rw [hps] at hflag
    cases hflag
  · have hpmem : p ∈ buildCandDict res th sent := by
      rw [hsplit]
      exact List.mem_append.2 (Or.inr (List.mem_cons_self p l2))
    have hpne : p.2 ≠ [] := (mem_buildCandDict hpmem).1
    have hps : processSent res th sent = (p.2, true) := by
      simp only [processSent]
      rw [heq]
      simp [hpne]
    refine ⟨fun hall => absurd hpe (hall p hpmem), fun hflag => ?_, fun _ => ?_⟩
    · rw [hps] at hflag
      cases hflag
    · exact ⟨p, hpmem, hpe, by rw [hps]⟩

/-- C1 (amended): with the baseline fixed, the effect of raising the
weight on the acceptance test `score > weight * baseline` depends on the
baseline's sign: when the baseline is nonnegative, every hypothesis
eligible at the larger weight is eligible at the smaller one (the
eligible set shrinks as the weight rises); when the baseline is
nonpositive — the usual case, since LM scores are log-probabilities —
the direction reverses: every hypothesis eligible at the smaller weight
is eligible at the larger one. -/
theorem eligTest_weight_mono (lm : List String → ℚ) (orig w1 w2 : ℚ)
    (cs : List String) (h12 : w1 ≤ w2) :
    (0 ≤ orig → eligTest lm orig w2 cs → eligTest lm orig w1 cs) ∧
    (orig ≤ 0 → eligTest lm orig w1 cs → eligTest lm orig w2 cs) := by
  constructor
  · intro hsign he
    unfold eligTest at he ⊢
    exact lt_of_le_of_lt (mul_le_mul_of_nonneg_right h12 hsign) he
  · intro hsign he
    unfold eligTest at he ⊢
    exact lt_of_le_of_lt (mul_le_mul_of_nonpos_right h12 hsign) he

theorem eligTest_weight_mono_w : eligTest exLm (-2) 2 ["the"] :=
  (eligTest_weight_mono exLm (-2) 1 2 ["the"] (by norm_num)).2 (by norm_num)
    (by norm_num [eligTest, candProb, exLm])

/-- C1 (counterexample to the claim as stated): with the example
resources, on the sentence of the single token `a` the baseline is `-2`;
at weight `1` the hypothesis `the` is eligible, while at the smaller
weight `96/100` the sweep's eligible set is empty — so raising the
weight from `96/100` to `1` grows the eligible set instead of shrinking
it, refuting the claim at this concrete input. -/
theorem eligSet_weight_not_mono :
    (96 / 100 : ℚ) ≤ 1 ∧
    ((0, "the", (1 : ℚ)), (["the"] : List String)) ∈ eligSet exRes 1 ["a"] ∧
    eligSet exRes (96 / 100) ["a"] = [] := by
  refine ⟨by norm_num, ?_, ?_⟩
  · simp [eligSet, buildCandDict, tokCands, prepCands, detCands, morphCands,
      spellCands, exRes, exLm, generateCands, genStep, hypSent, pyDictInsert,
      dictUpdate, eligTest, candProb, pyIsAlpha, List.enum, List.enumFrom,
      List.lookup]
    norm_num
  · simp [eligSet, buildCandDict, tokCands, prepCands, detCands, morphCands,
      spellCands, exRes, exLm, generateCands, genStep, hypSent, pyDictInsert,
      dictUpdate, eligTest, candProb, pyIsAlpha, List.enum, List.enumFrom,
      List.lookup]
    norm_num

/-- C3 (amended): a malformed database line aborts the whole load: if any
line of the (stripped) content fails to parse — it lacks the colon-space
separator, or its key part is blank — then `loadWordFormDict` returns no
dictionary at all, rather than the dictionary of the well-formed lines. -/
theorem loadWordFormDict_aborts (content line : String)
    (hmem : line ∈ (splitNl (pyStrip content.data) []).map String.mk)
    (hbad : parseEntry line = none) :
    loadWordFormDict content = none := by
  unfold loadWordFormDict
  suffices h : ∀ (lines : List String) (d : List (String × List String)),
      line ∈ lines →
      lines.foldlM (fun d l => (parseEntry l).map (fun p => pyDictInsert d p.1 p.2))
        d = none by
    exact h _ [] hmem
  intro lines
  induction lines with
  | nil => intro d h; cases h
  | cons a rest ih =>
    intro d hmem'
    rw [List.foldlM_cons]
    rcases List.mem_cons.1 hmem' with h | h
    · rw [← h, hbad]
      rfl
    · cases hpe : parseEntry a with
      | none => rfl
      | some p => simpa [hpe] using ih (pyDictInsert d p.1 p.2) h

theorem loadWordFormDict_aborts_w :
    loadWordFormDict ("abc abc: abcs" ++ "\n" ++ "bad") = none :=
  loadWordFormDict_aborts ("abc abc: abcs" ++ "\n" ++ "bad") "bad"
    (by decide) (by decide)

/-- C3 (counterexample to the claim as stated): an input of one
well-formed line followed by one malformed line yields no dictionary at
all, not the dictionary of the well-formed line — which the loader does
produce when the malformed line is absent. -/
theorem loadWordFormDict_skip_counterexample :
    loadWordFormDict ("abc abc: abcs" ++ "\n" ++ "bad") = none ∧
    loadWordFormDict ("abc abc: abcs" ++ "\n" ++ "bad") ≠
      some [("abc", ["abc", "abcs"])] ∧
    loadWordFormDict "abc abc: abcs" = some [("abc", ["abc", "abcs"])] := by
  refine ⟨by decide, by decide, by decide⟩

/-- A successfully parsed database line's form set contains its lemma. -/
theorem parseEntry_self_mem {line w : String} {fs : List String}
    (h : parseEntry line = some (w, fs)) : w ∈ fs := by
  unfold parseEntry at h
  split at h
  · cases h
  · cases h
  · split at h
    · cases h
    · rw [Option.some.injEq, Prod.mk.injEq] at h
      rw [← h.1, ← h.2]
      exact List.mem_dedup.2 (List.mem_cons_self _ _)

/-- C8: every form set the loader stores contains the entry's lemma
itself, in addition to the parsed surface forms. -/
theorem loadWordFormDict_self_mem (content : String)
    (d : List (String × List String)) (w : String) (fs : List String)
    (hload : loadWordFormDict content = some d) (hmem : (w, fs) ∈ d) : w ∈ fs := by
  unfold loadWordFormDict at hload
  suffices h : ∀ (lines : List String) (d0 : List (String × List String)),
      (∀ p ∈ d0, p.1 ∈ p.2) →
      lines.foldlM (fun d l => (parseEntry l).map (fun p => pyDictInsert d p.1 p.2))
        d0 = some d →
      ∀ p ∈ d, p.1 ∈ p.2 by
    exact h _ [] (fun p hp => absurd hp (List.not_mem_nil p)) hload (w, fs) hmem
  intro lines
  induction lines with
  | nil =>
    intro d0 h0 heq
    rw [List.foldlM_nil] at heq
    cases heq
    exact h0
  | cons a rest ih =>
    intro d0 h0 heq
    rw [List.foldlM_cons] at heq
    cases hpe : parseEntry a with
    | none =>
      rw [hpe] at heq
      cases heq
    | some q =>
      rw [hpe] at heq
      obtain ⟨qw, qfs⟩ := q
      refine ih (pyDictInsert d0 qw qfs) ?_ heq
      intro p hp
      rcases mem_pyDictInsert hp with h | h
      · exact h0 p h
      · rw [h]
        exact parseEntry_self_mem hpe

theorem loadWordFormDict_self_mem_w : "abc" ∈ ["abc", "abcs"] :=
  loadWordFormDict_self_mem "abc abc: abcs" [("abc", ["abc", "abcs"])]
    "abc" ["abc", "abcs"] (by decide) (by decide)

/-! Character-class bridging lemmas (ASCII code points). -/

theorem isLower_iff (c : Char) : c.isLower = true ↔ 97 ≤ c.toNat ∧ c.toNat ≤ 122 := by
  simp only [Char.isLower, Bool.and_eq_true, decide_eq_true_eq]
  exact and_congr Iff.rfl Iff.rfl

theorem isUpper_iff (c : Char) : c.isUpper = true ↔ 65 ≤ c.toNat ∧ c.toNat ≤ 90 := by
  simp only [Char.isUpper, Bool.and_eq_true, decide_eq_true_eq]
  exact and_congr Iff.rfl Iff.rfl

theorem toNat_ofNat_valid {n : ℕ} (h : n < 55296) : (Char.ofNat n).toNat = n := by
  have hv : n.isValidChar := Or.inl h
  rw [Char.ofNat, dif_pos hv]
  rfl

theorem isWhitespace_toNat {c : Char} (h : c.isWhitespace = true) :
    c.toNat = 32 ∨ c.toNat = 9 ∨ c.toNat = 13 ∨ c.toNat = 10 := by
  simp only [Char.isWhitespace, Bool.or_eq_true, decide_eq_true_eq] at h
  rcases h with ((rfl | rfl) | rfl) | rfl
  · exact Or.inl (by decide)
  · exact Or.inr (Or.inl (by decide))
  · exact Or.inr (Or.inr (Or.inl (by decide)))
  · exact Or.inr (Or.inr (Or.inr (by decide)))

theorem ws_false_of_toNat {c : Char} (h1 : 33 ≤ c.toNat) : c.isWhitespace = false := by
  cases hb : c.isWhitespace with
  | false => rfl
  | true => rcases isWhitespace_toNat hb with h | h | h | h <;> omega

theorem lower_false_of_toNat {c : Char} (h : c.toNat < 97 ∨ 122 < c.toNat) :
    c.isLower = false := by
  cases hb : c.isLower with
  | false => rfl
  | true =>
    have := (isLower_iff c).1 hb
    omega

theorem upper_false_of_toNat {c : Char} (h : c.toNat < 65 ∨ 90 < c.toNat) :
    c.isUpper = false := by
  cases hb : c.isUpper with
  | false => rfl
  | true =>
    have := (isUpper_iff c).1 hb
    omega

/-- Uppercasing a character never yields a lowercase character. -/
theorem upperChar_not_lower (c : Char) : (upperChar c).isLower = false := by
  unfold upperChar
  split
  case isTrue h =>
    apply lower_false_of_toNat
    rw [toNat_ofNat_valid (by omega)]
    omega
  case isFalse h =>
    apply lower_false_of_toNat
    omega

/-- Lowercasing preserves whether a character is whitespace. -/
theorem lowerChar_whitespace (c : Char) :
    (lowerChar c).isWhitespace = c.isWhitespace := by
  unfold lowerChar
  split
  case isTrue h =>
    rw [ws_false_of_toNat (c := Char.ofNat (c.toNat + 32))
        (by rw [toNat_ofNat_valid (by omega)]; omega),
      ws_false_of_toNat (by omega)]
  case isFalse h => rfl

/-! Lemmas about whitespace tokenization, joining and the correction loop. -/

/-- Every word the tokenizer produces is non-empty. -/
theorem wordsAux_words_ne : ∀ (l acc : List Char), ∀ w ∈ wordsAux l acc, w ≠ [] := by
  intro l
  induction l with
  | nil =>
    intro acc w hw
    unfold wordsAux at hw
    split at hw
    · cases hw
    · rcases List.mem_singleton.1 hw with rfl
      simpa using by assumption
  | cons c cs ih =>
    intro acc w hw
    unfold wordsAux at hw
    split at hw
    · split at hw
      · exact ih [] w hw
      · rcases List.mem_cons.1 hw with rfl | hw'
        · simpa using by assumption
        · exact ih [] w hw'
    · exact ih (c :: acc) w hw

/-- Every token of a tokenized line is a non-empty string. -/
theorem pySplit_tokens_ne (s : String) : ∀ t ∈ pySplit s, t ≠ "" := by
  intro t ht
  obtain ⟨w, hw, hwt⟩ := List.mem_map.1 ht
  intro hcontra
  exact wordsAux_words_ne s.data [] w hw
    (by rw [← hwt] at hcontra; exact congrArg String.data hcontra)

/-- A line that tokenizes to nothing consists of whitespace only. -/
theorem wordsAux_eq_nil : ∀ (l acc : List Char), wordsAux l acc = [] →
    acc = [] ∧ ∀ c ∈ l, c.isWhitespace = true := by
  intro l
  induction l with
  | nil =>
    intro acc h
    unfold wordsAux at h
    split at h
    · exact ⟨by assumption, fun c hc => absurd hc (List.not_mem_nil c)⟩
    · cases h
  | cons c cs ih =>
    intro acc h
    unfold wordsAux at h
    split at h
    case isTrue hws =>
      split at h
      case isTrue hacc =>
        obtain ⟨_, hall⟩ := ih [] h
        refine ⟨hacc, fun d hd => ?_⟩
        rcases List.mem_cons.1 hd with rfl | hd'
        · exact hws
        · exact hall d hd'
      case isFalse => cases h
    case isFalse hws =>
      obtain ⟨habs, _⟩ := ih (c :: acc) h
      cases habs

/-- A blank line is never detected as uppercase, since it has no cased
character. -/
theorem pyIsUpper_false_of_blank {line : String} (h : pySplit line = []) :
    pyIsUpper line = false := by
  have hall : ∀ c ∈ line.data, c.isWhitespace = true := by
    unfold pySplit at h
    exact (wordsAux_eq_nil line.data [] (by
      cases hw : wordsAux line.data [] with
      | nil => rfl
      | cons a l => rw [hw] at h; cases h)).2
  unfold pyIsUpper
  apply Bool.and_eq_false_iff.2
  left
  apply List.any_eq_false.2
  intro c hc
  have hws := isWhitespace_toNat (hall c hc)
  rw [Bool.or_eq_true, not_or]
  constructor
  · rw [upper_false_of_toNat (by omega)]
    simp
  · rw [lower_false_of_toNat (by omega)]
    simp

/-- Tokenization commutes with lowercasing: lowering the line lowers each
token and changes nothing else (in particular, the token count). -/
theorem wordsAux_map_lower : ∀ (l acc : List Char),
    wordsAux (l.map lowerChar) (acc.map lowerChar) =
      (wordsAux l acc).map (List.map lowerChar) := by
  intro l
  induction l with
  | nil =>
    intro acc
    rw [List.map_nil]
    unfold wordsAux
    by_cases hacc : acc = []
    · subst hacc
      simp
    · rw [if_neg (by simpa using hacc), if_neg hacc]
      simp
  | cons c cs ih =>
    intro acc
    rw [List.map_cons]
    unfold wordsAux
    rw [lowerChar_whitespace c]
    by_cases hws : c.isWhitespace = true
    · rw [if_pos hws, if_pos hws]
      by_cases hacc : acc = []
      · subst hacc
        rw [List.map_nil, if_pos rfl, if_pos rfl]
        have hnil := ih []
        rw [List.map_nil] at hnil
        exact hnil
      · rw [if_neg (by simpa using hacc), if_neg hacc, List.map_cons]
        congr 1
        · rw [List.map_reverse]
        · have hnil := ih []
          rw [List.map_nil] at hnil
          exact hnil
    · rw [if_neg hws, if_neg hws]
      have hcons := ih (c :: acc)
      rw [List.map_cons] at hcons
      exact hcons

/-- Lowercasing a line does not create or remove tokens. -/
theorem pySplit_pyLower_ne_nil {line : String} (h : pySplit line ≠ []) :
    pySplit (pyLower line) ≠ [] := by
  unfold pySplit at h ⊢
  intro hcontra
  apply h
  rw [List.map_eq_nil_iff] at hcontra ⊢
  have := wordsAux_map_lower line.data []
  rw [List.map_nil] at this
  show wordsAux line.data [] = []
  have h2 : (wordsAux line.data []).map (List.map lowerChar) = [] := by
    rw [← this]
    exact hcontra
  rwa [List.map_eq_nil_iff] at h2

/-- Unfolding of the joiner on a non-empty token list. -/
theorem joinChars_cons (t : String) (ts : List String) :
    joinChars (t :: ts) = t.data ++ (if ts = [] then [] else ' ' :: joinChars ts) := by
  cases ts with
  | nil => simp [joinChars]
  | cons t' ts' => simp [joinChars]

/-- Joining a non-empty list of non-empty tokens starts with the first
token's first character. -/
theorem joinChars_head {t : String} (ts : List String) {c : Char} {cs : List Char}
    (h : t.data = c :: cs) : ∃ rest, joinChars (t :: ts) = c :: rest := by
  rw [joinChars_cons, h]
  exact ⟨cs ++ (if ts = [] then [] else ' ' :: joinChars ts), rfl⟩

/-- Joining a non-empty list of non-empty tokens yields a non-empty
string. -/
theorem joinToks_ne {ts : List String} (h1 : ts ≠ []) (h2 : ∀ t ∈ ts, t ≠ "") :
    joinToks ts ≠ "" := by
  cases ts with
  | nil => exact absurd rfl h1
  | cons t rest =>
    have htd : t.data ≠ [] := by
      intro hd
      exact h2 t (List.mem_cons_self t rest) (by
        have : t = String.mk t.data := rfl
        rw [this, hd])
    cases hd : t.data with
    | nil => exact absurd hd htd
    | cons c cs =>
      obtain ⟨restc, hjoin⟩ := joinChars_head rest hd
      unfold joinToks
      rw [hjoin]
      intro hcontra
      cases congrArg String.data hcontra

/-- One sweep preserves well-formedness of the sentence: the result is
non-empty and its tokens are non-empty strings. -/
theorem processSent_good (res : Res) (th : ℚ) (sent : List String)
    (h1 : sent ≠ []) (h2 : ∀ t ∈ sent, t ≠ "") :
    (processSent res th sent).1 ≠ [] ∧ ∀ t ∈ (processSent res th sent).1, t ≠ "" := by
  rcases selectLoop_spec res.lm (candProb res.lm sent) (buildCandDict res th sent)
      none [] with ⟨heq, _⟩ | ⟨l1, p, l2, hsplit, _, _, heq, _, _⟩
  · have hps : processSent res th sent = (sent, false) := by
      simp only [processSent]
      rw [heq]
      simp
    rw [hps]
    exact ⟨h1, h2⟩
  · have hpmem : p ∈ buildCandDict res th sent := by
      rw [hsplit]
      exact List.mem_append.2 (Or.inr (List.mem_cons_self p l2))
    have hgood := mem_buildCandDict hpmem
    have hps : processSent res th sent = (p.2, true) := by
      simp only [processSent]
      rw [heq]
      simp [hgood.1]
    rw [hps]
    exact hgood

/-- The correction loop preserves well-formedness of the sentence. -/
theorem correctLoop_good (res : Res) (th : ℚ) : ∀ (fuel : ℕ) (sent : List String),
    sent ≠ [] → (∀ t ∈ sent, t ≠ "") →
    correctLoop res th fuel sent ≠ [] ∧ ∀ t ∈ correctLoop res th fuel sent, t ≠ "" := by
  intro fuel
  induction fuel with
  | zero => intro sent h1 h2; exact ⟨h1, h2⟩
  | succ n ih =>
    intro sent h1 h2
    have hg := processSent_good res th sent h1 h2
    have hstep : correctLoop res th (n + 1) sent =
        if (processSent res th sent).2 then correctLoop res th n (processSent res th sent).1
        else (processSent res th sent).1 := rfl
    rw [hstep]
    cases hflag : (processSent res th sent).2 with
    | false =>
      rw [if_neg (by simp [hflag])]
      exact hg
    | true =>
      rw [if_pos (by simp [hflag])]
      exact ih (processSent res th sent).1 hg.1 hg.2

/-- The first character of a capitalised joined sentence exists and is
not lowercase, for any non-empty sentence of non-empty tokens. -/
theorem capFirst_join_head {toks : List String} (h1 : toks ≠ [])
    (h2 : ∀ t ∈ toks, t ≠ "") :
    ∃ c cs, (capFirst (joinToks toks)).data = c :: cs ∧ c.isLower = false := by
  cases toks with
  | nil => exact absurd rfl h1
  | cons t rest =>
    have htd : t.data ≠ [] := by
      intro hd
      exact h2 t (List.mem_cons_self t rest) (by
        have hmk : t = String.mk t.data := rfl
        rw [hmk, hd])
    cases hd : t.data with
    | nil => exact absurd hd htd
    | cons c cs =>
      obtain ⟨restc, hjoin⟩ := joinChars_head rest hd
      refine ⟨upperChar c, restc, ?_, upperChar_not_lower c⟩
      simp only [joinToks]
      rw [hjoin]
      rfl

/-- Uppercasing a string maps its character list pointwise. -/
theorem pyUpper_head {s : String} {c : Char} {cs : List Char} (h : s.data = c :: cs) :
    (pyUpper s).data = upperChar c :: cs.map upperChar := by
  simp only [pyUpper, h, List.map_cons]

/-- C6: the orchestrator writes exactly one output line per input line,
in the input order, and an input line with no non-whitespace content
yields a blank output line with no correction attempted, so the output
line count always equals the input line count. -/
theorem processLines_alignment (res : Res) (th : ℚ) (fuel : ℕ) (lines : List String) :
    (processLines res th fuel lines).length = lines.length ∧
    ∀ line ∈ lines, pySplit line = [] → processLine res th fuel line = "" := by
  constructor
  · exact List.length_map lines (processLine res th fuel)
  · intro line _ hblank
    have hupper := pyIsUpper_false_of_blank hblank
    simp [processLine, hupper, hblank]

/-- C7: an all-uppercase input line produces an output line with no
lowercase character; and every non-blank input line's output starts with
a character that is not lowercase (the first character is capitalised),
regardless of the casing of the rest of the line. -/
theorem processLine_case_restoration (res : Res) (th : ℚ) (fuel : ℕ) (line : String) :
    (pyIsUpper line = true →
      ∀ c ∈ (processLine res th fuel line).data, c.isLower = false) ∧
    (pySplit line ≠ [] →
      ∃ c cs, (processLine res th fuel line).data = c :: cs ∧ c.isLower = false) := by
  constructor
  · intro hupper
    by_cases htoks : pySplit (pyLower line) = []
    · have heq : processLine res th fuel line = "" := by
        simp [processLine, hupper, htoks]
      rw [heq]
      intro c hc
      cases hc
    · have heq : processLine res th fuel line =
          pyUpper (capFirst (joinToks (correctLoop res th fuel
            (pySplit (pyLower line))))) := by
        simp [processLine, hupper, htoks]
      rw [heq]
      intro c hc
      have hc' : c ∈ List.map upperChar
          (capFirst (joinToks (correctLoop res th fuel
            (pySplit (pyLower line))))).data := hc
      obtain ⟨d, _, hdc⟩ := List.mem_map.1 hc'
      rw [← hdc]
      exact upperChar_not_lower d
  · intro hne
    by_cases hupper : pyIsUpper line = true
    · have htoks : pySplit (pyLower line) ≠ [] := pySplit_pyLower_ne_nil hne
      have hgood := correctLoop_good res th fuel (pySplit (pyLower line)) htoks
        (pySplit_tokens_ne (pyLower line))
      obtain ⟨c, cs, hdata, hlow⟩ := capFirst_join_head hgood.1 hgood.2
      have heq : processLine res th fuel line =
          pyUpper (capFirst (joinToks (correctLoop res th fuel
            (pySplit (pyLower line))))) := by
        simp [processLine, hupper, htoks]
      rw [heq]
      exact ⟨upperChar c, cs.map upperChar, pyUpper_head hdata, upperChar_not_lower c⟩
    · have hgood := correctLoop_good res th fuel (pySplit line) hne
        (pySplit_tokens_ne line)
      obtain ⟨c, cs, hdata, hlow⟩ := capFirst_join_head hgood.1 hgood.2
      have heq : processLine res th fuel line =
          capFirst (joinToks (correctLoop res th fuel (pySplit line))) := by
        simp [processLine, hupper, hne]
      rw [heq]
      exact ⟨c, cs, hdata, hlow⟩

/-- C9: starting from a non-empty token list of non-empty tokens, the
sentence the correction loop produces is a non-empty token list of
non-empty tokens, so the joined sentence string is non-empty and the
first-character capitalisation of `main` never indexes into an empty
string. -/
theorem correctLoop_result_nonempty (res : Res) (th : ℚ) (fuel : ℕ)
    (sent : List String) (h1 : sent ≠ []) (h2 : ∀ t ∈ sent, t ≠ "") :
    correctLoop res th fuel sent ≠ [] ∧
    (∀ t ∈ correctLoop res th fuel sent, t ≠ "") ∧
    joinToks (correctLoop res th fuel sent) ≠ "" := by
  obtain ⟨ha, hb⟩ := correctLoop_good res th fuel sent h1 h2
  exact ⟨ha, hb, joinToks_ne ha hb⟩

theorem correctLoop_result_nonempty_w :
    correctLoop exRes 1 1 ["zzz"] ≠ [] ∧
    (∀ t ∈ correctLoop exRes 1 1 ["zzz"], t ≠ "") ∧
    joinToks (correctLoop exRes 1 1 ["zzz"]) ≠ "" :=
  correctLoop_result_nonempty exRes 1 1 ["zzz"] (by decide) (by decide)

end Lmgec
